import Mathlib

/-!
# GC event listeners of the dynamic Patricia trie

A shallow embedding of
`native/jni/src/suggest/policyimpl/dictionary/dynamic_patricia_trie_gc_event_listeners.h`
and the properties of its traversal listeners.

Conventions of the embedding:

* a C++ `int` is an `Int`; the embedded member functions only copy and compare
  such values, so no arithmetic can overflow in them;
* the `std::vector<int> valueStack` is a `List Int` written front first, so the
  `back()` of the vector is the last element of the list, `push_back(v)` is
  `xs ++ [v]` and `pop_back()` is `List.dropLast`;
* a member function that mutates its object and returns `bool` becomes a
  function returning the `Bool` together with the object after the call.
-/

namespace DynamicPatriciaTrieGcEventListeners

/-! ## The deletion-marking listener -/

/-- The mutable members of the listener that marks useless PtNodes as deleted:
the vector `valueStack` and the scratch value `mChildrenValue`. The two
`*const` pointer members `mWritingHelper` and `mBuffer` are never reassigned
and are not read by the member functions defined in the header. -/
structure TraversePolicyToUpdateUnigramProbabilityAndMarkUselessPtNodesAsDeleted where
  valueStack : List Int
  mChildrenValue : Int
deriving DecidableEq

namespace TraversePolicyToUpdateUnigramProbabilityAndMarkUselessPtNodesAsDeleted

/-- The constructor: `valueStack()` is the empty vector and `mChildrenValue(0)`. -/
def new : TraversePolicyToUpdateUnigramProbabilityAndMarkUselessPtNodesAsDeleted :=
  { valueStack := [], mChildrenValue := 0 }

/-- The member `onAscend`: fails on an empty vector, otherwise copies `back()`
into `mChildrenValue` and then does `pop_back()`. -/
def onAscend (self : TraversePolicyToUpdateUnigramProbabilityAndMarkUselessPtNodesAsDeleted) :
    Bool × TraversePolicyToUpdateUnigramProbabilityAndMarkUselessPtNodesAsDeleted :=
  if h : self.valueStack = [] then
    (false, self)
  else
    (true, { valueStack := self.valueStack.dropLast,
             mChildrenValue := self.valueStack.getLast h })

/-- The member `onDescend`: `valueStack.push_back(0)`; the argument is unused. -/
def onDescend (self : TraversePolicyToUpdateUnigramProbabilityAndMarkUselessPtNodesAsDeleted)
    (_ptNodeArrayPos : Int) :
    Bool × TraversePolicyToUpdateUnigramProbabilityAndMarkUselessPtNodesAsDeleted :=
  (true, { self with valueStack := self.valueStack ++ [0] })

/-- The member `onReadingPtNodeArrayTail`: `return true`. -/
def onReadingPtNodeArrayTail
    (self : TraversePolicyToUpdateUnigramProbabilityAndMarkUselessPtNodesAsDeleted) :
    Bool × TraversePolicyToUpdateUnigramProbabilityAndMarkUselessPtNodesAsDeleted :=
  (true, self)

end TraversePolicyToUpdateUnigramProbabilityAndMarkUselessPtNodesAsDeleted

/-- Short name for the deletion-marking listener. -/
abbrev MarkListener := TraversePolicyToUpdateUnigramProbabilityAndMarkUselessPtNodesAsDeleted

/-! ### Sequences of structural calls -/

/-- One of the three structural callbacks the header defines for the listener. -/
inductive StructuralCall where
  | descend (ptNodeArrayPos : Int)
  | arrayTail
  | ascend
deriving DecidableEq

/-- Dispatch of one structural call to the member function it names. -/
def call (self : MarkListener) : StructuralCall → Bool × MarkListener
  | .descend p => self.onDescend p
  | .arrayTail => self.onReadingPtNodeArrayTail
  | .ascend => self.onAscend

/-- The calls of a sequence made one after the other on the same listener:
the value each call returned, in call order, and the listener afterwards. -/
def callAll (self : MarkListener) : List StructuralCall → List Bool × MarkListener
  | [] => ([], self)
  | c :: cs =>
    let r := call self c
    let rest := callAll r.2 cs
    (r.1 :: rest.1, rest.2)

/-- Number of `onDescend` calls in a sequence. -/
def countDescend : List StructuralCall → Nat
  | [] => 0
  | .descend _ :: cs => countDescend cs + 1
  | _ :: cs => countDescend cs

/-- Number of `onAscend` calls in a sequence. -/
def countAscend : List StructuralCall → Nat
  | [] => 0
  | .ascend :: cs => countAscend cs + 1
  | _ :: cs => countAscend cs

/-- No beginning of the sequence has more `onAscend` than `onDescend` calls. -/
def NeverBelow (cs : List StructuralCall) : Prop :=
  ∀ k, k ≤ cs.length → countAscend (cs.take k) ≤ countDescend (cs.take k)

instance (cs : List StructuralCall) : Decidable (NeverBelow cs) :=
  inferInstanceAs (Decidable (∀ k, k ≤ cs.length → _))

/-- A well-nested sequence: balanced, and never below. -/
def WellNested (cs : List StructuralCall) : Prop :=
  countAscend cs = countDescend cs ∧ NeverBelow cs

instance (cs : List StructuralCall) : Decidable (WellNested cs) :=
  inferInstanceAs (Decidable (_ ∧ _))

/-- With `n` arrays open before the sequence starts, no beginning of the
sequence closes more arrays than are open. -/
def NeverBelowFrom (n : Nat) (cs : List StructuralCall) : Prop :=
  ∀ k, k ≤ cs.length → countAscend (cs.take k) ≤ n + countDescend (cs.take k)

/-! ## The bigram-pruning listener -/

/-- Modelled from the spec: the class `DynamicPatriciaTrieNodeReader` is declared
in a header outside the sources. A decoded node is kept as the values of the
two getters the listener reads, `isDeleted()` and `getBigramsPos()`. -/
structure DynamicPatriciaTrieNodeReader where
  isDeleted : Bool
  getBigramsPos : Int
deriving DecidableEq

/-- Modelled from the spec: the class `DynamicBigramListPolicy` is declared in a
header outside the sources. The bigram-chain collaborator is an arbitrary
behaviour over its own state `σ`: called with the value stored behind the
`int *` argument, `updateAllBigramEntriesAndDeleteUselessEntries` reports
success or failure, leaves a value behind the pointer, and moves to a new
collaborator state. -/
structure DynamicBigramListPolicy (σ : Type) where
  updateAllBigramEntriesAndDeleteUselessEntries : σ → Int → Bool × Int × σ

/-- The collaborator assembled from its three observable parts: the report,
the value written back through the pointer, and the next collaborator state. -/
def DynamicBigramListPolicy.ofParts {σ : Type} (report : σ → Int → Bool)
    (written : σ → Int → Int) (next : σ → Int → σ) : DynamicBigramListPolicy σ :=
  { updateAllBigramEntriesAndDeleteUselessEntries :=
      fun s pos => (report s pos, written s pos, next s pos) }

/-- The same collaborator with a record of its invocations: every call appends
the head position it was given to the record. -/
def DynamicBigramListPolicy.recording {σ : Type} (p : DynamicBigramListPolicy σ) :
    DynamicBigramListPolicy (σ × List Int) :=
  { updateAllBigramEntriesAndDeleteUselessEntries := fun s pos =>
      let r := p.updateAllBigramEntriesAndDeleteUselessEntries s.1 pos
      (r.1, r.2.1, (r.2.2, s.2 ++ [pos])) }

/-- The only member of the bigram-pruning listener is the `*const` pointer
`mBigramPolicy`; the object it points to has its state in `σ`, passed to and
returned from every member function next to the listener itself. -/
structure TraversePolicyToUpdateBigramProbability (σ : Type) where
  mBigramPolicy : DynamicBigramListPolicy σ

namespace TraversePolicyToUpdateBigramProbability

variable {σ : Type}

/-- The member `onAscend`: `return true`. -/
def onAscend (self : TraversePolicyToUpdateBigramProbability σ) (policy : σ) :
    Bool × TraversePolicyToUpdateBigramProbability σ × σ :=
  (true, self, policy)

/-- The member `onDescend`: `return true`. -/
def onDescend (self : TraversePolicyToUpdateBigramProbability σ) (policy : σ)
    (_ptNodeArrayPos : Int) : Bool × TraversePolicyToUpdateBigramProbability σ × σ :=
  (true, self, policy)

/-- The member `onReadingPtNodeArrayTail`: `return true`. -/
def onReadingPtNodeArrayTail (self : TraversePolicyToUpdateBigramProbability σ) (policy : σ) :
    Bool × TraversePolicyToUpdateBigramProbability σ × σ :=
  (true, self, policy)

/-- The member `onVisitingPtNode`. The constant `NOT_A_DICT_POS` comes from
`defines.h`, outside the sources, and is a parameter. The local `pos` the
collaborator may overwrite goes out of scope at the end of the block, so the
written value `r.2.1` is dropped. -/
def onVisitingPtNode (NOT_A_DICT_POS : Int) (self : TraversePolicyToUpdateBigramProbability σ)
    (policy : σ) (node : DynamicPatriciaTrieNodeReader) (_nodeCodePoints : List Int) :
    Bool × TraversePolicyToUpdateBigramProbability σ × σ :=
  if !node.isDeleted then
    let pos := node.getBigramsPos
    if pos != NOT_A_DICT_POS then
      let r := self.mBigramPolicy.updateAllBigramEntriesAndDeleteUselessEntries policy pos
      if !r.1 then
        (false, self, r.2.2)
      else
        (true, self, r.2.2)
    else
      (true, self, policy)
  else
    (true, self, policy)

end TraversePolicyToUpdateBigramProbability

/-- A callback invocation made on the bigram-pruning listener during a walk. -/
inductive BigramCall where
  | descend (ptNodeArrayPos : Int)
  | visit (node : DynamicPatriciaTrieNodeReader) (nodeCodePoints : List Int)
  | arrayTail
  | ascend
deriving DecidableEq

/-- Whether the invocation is a node visit. -/
def BigramCall.isVisit : BigramCall → Bool
  | .visit _ _ => true
  | _ => false

/-- Dispatch of one invocation to the member function it names. -/
def bigramCall {σ : Type} (NOT_A_DICT_POS : Int)
    (self : TraversePolicyToUpdateBigramProbability σ) (policy : σ) :
    BigramCall → Bool × TraversePolicyToUpdateBigramProbability σ × σ
  | .descend p => self.onDescend policy p
  | .visit node cps => self.onVisitingPtNode NOT_A_DICT_POS policy node cps
  | .arrayTail => self.onReadingPtNodeArrayTail policy
  | .ascend => self.onAscend policy

/-- Modelled from the spec: the traversal engine is outside the sources. A pass
makes the invocations in order and stops at the first one that returns false
(section 4.1: returning false from any callback aborts the traversal early);
its outcome is whether it ran to the end, with the listener and the
collaborator state it leaves. -/
def bigramPass {σ : Type} (NOT_A_DICT_POS : Int)
    (self : TraversePolicyToUpdateBigramProbability σ) (policy : σ) :
    List BigramCall → Bool × TraversePolicyToUpdateBigramProbability σ × σ
  | [] => (true, self, policy)
  | c :: cs =>
    let r := bigramCall NOT_A_DICT_POS self policy c
    if r.1 then bigramPass NOT_A_DICT_POS r.2.1 r.2.2 cs else r

/-! ## The deletion-marking pass over a trie -/

/-- Modelled from the spec: the trie of section 3 as the walk sees it. A node
array is its sequence of sibling nodes up to the array tail. A node carries its
position, whether it has a valid terminal probability, and either no child
array (`leaf`) or a child array with its position (`parent`). -/
inductive PtNodeArray where
  | tail
  | leaf (pos : Int) (hasValidProbability : Bool) (rest : PtNodeArray)
  | parent (pos : Int) (hasValidProbability : Bool) (childrenPos : Int)
      (children : PtNodeArray) (rest : PtNodeArray)
deriving DecidableEq

/-- Modelled from the spec: one node of the trie as handed to
`onVisitingPtNode`: its position, whether it has a valid terminal probability,
and its child array when it has children. -/
structure PtNode where
  pos : Int
  hasValidProbability : Bool
  children : Option PtNodeArray
deriving DecidableEq

/-- The nodes an array holds directly, in array order. -/
def PtNodeArray.nodes : PtNodeArray → List PtNode
  | .tail => []
  | .leaf pos v rest => ⟨pos, v, none⟩ :: rest.nodes
  | .parent pos v _ children rest => ⟨pos, v, some children⟩ :: rest.nodes

/-- Every node of the trie below an array: the nodes of the array and of all
the arrays under them, each node after the nodes of its own child array. -/
def PtNodeArray.allNodes : PtNodeArray → List PtNode
  | .tail => []
  | .leaf pos v rest => ⟨pos, v, none⟩ :: rest.allNodes
  | .parent pos v _ children rest =>
    children.allNodes ++ ⟨pos, v, some children⟩ :: rest.allNodes

/-- The descendants of a node: every node of the trie below its child array. -/
def PtNode.descendants (n : PtNode) : List PtNode :=
  match n.children with
  | none => []
  | some children => children.allNodes

/-- The state of a deletion-marking pass: the listener, and the nodes the pass
has marked as deleted so far (the effect of the pass on the buffer). -/
structure MarkPass where
  listener : MarkListener
  markedDeleted : List PtNode
deriving DecidableEq

/-- Modelled from the spec: the body of the deletion-marking listener's
`onVisitingPtNode` is only declared in the header. Section 4.2: a node with a
valid terminal probability, or with at least one live descendant (signalled by
the aggregate of its child array, held in the scratch value, if it has
children), is useful and its contribution, one, is folded into the accumulator
on top of the stack; otherwise the node is marked deleted. The visit fails when
there is no accumulator to fold into. An accumulator counts useful nodes of one
array, so it stays far inside the range of `int` and is not wrapped here. -/
def MarkPass.onVisitingPtNode (self : MarkPass) (node : PtNode) : Bool × MarkPass :=
  if h : self.listener.valueStack = [] then
    (false, self)
  else if node.hasValidProbability
      || (node.children.isSome && decide (0 < self.listener.mChildrenValue)) then
    (true, { self with listener :=
      { self.listener with valueStack :=
          self.listener.valueStack.dropLast ++ [self.listener.valueStack.getLast h + 1] } })
  else
    (true, { self with markedDeleted := self.markedDeleted ++ [node] })

/-- The listener call `onDescend` made by the walk; `none` when it returns false. -/
def MarkPass.descend (self : MarkPass) (ptNodeArrayPos : Int) : Option MarkPass :=
  let r := self.listener.onDescend ptNodeArrayPos
  if r.1 then some { self with listener := r.2 } else none

/-- The listener call `onReadingPtNodeArrayTail` followed by `onAscend`, made by
the walk at the end of an array; `none` when one of them returns false. -/
def MarkPass.tailAndAscend (self : MarkPass) : Option MarkPass :=
  let r := self.listener.onReadingPtNodeArrayTail
  if r.1 then
    let r2 := r.2.onAscend
    if r2.1 then some { self with listener := r2.2 } else none
  else none

/-- The listener call `onVisitingPtNode` made by the walk; `none` when it
returns false. -/
def MarkPass.visit (self : MarkPass) (node : PtNode) : Option MarkPass :=
  let r := self.onVisitingPtNode node
  if r.1 then some r.2 else none

/-- Modelled from the spec: the traversal engine is outside the sources. Depth
first walk over the nodes of an open array (sections 4.1, 4.2 and 6): for each
node in array order, a node with children first has its child array walked
(`onDescend`, the nodes of the child array, `onReadingPtNodeArrayTail`,
`onAscend`), so that the aggregate of its child array is in the scratch value
when the node itself is delivered to `onVisitingPtNode`. A callback returning
false aborts the walk (`none`). -/
def walkNodes : PtNodeArray → MarkPass → Option MarkPass
  | .tail, st => some st
  | .leaf pos v rest, st =>
    (st.visit ⟨pos, v, none⟩).bind (walkNodes rest)
  | .parent pos v childrenPos children rest, st =>
    (((((st.descend childrenPos).bind (walkNodes children)).bind MarkPass.tailAndAscend).bind
      (fun st1 => st1.visit ⟨pos, v, some children⟩))).bind (walkNodes rest)

/-- Modelled from the spec: the whole pass of section 4.2 on a freshly
constructed listener, from the root array: `onDescend` into the root array,
its nodes, `onReadingPtNodeArrayTail` and the closing `onAscend`. -/
def markPass (rootPos : Int) (root : PtNodeArray) : Option MarkPass :=
  (((MarkPass.mk TraversePolicyToUpdateUnigramProbabilityAndMarkUselessPtNodesAsDeleted.new []).descend rootPos).bind (walkNodes root)).bind
    MarkPass.tailAndAscend

/-- The number of useful nodes an array holds directly, by recursion on the
trie: a node is useful when it has a valid terminal probability or a child
array holding a useful node. -/
def PtNodeArray.usefulCount : PtNodeArray → Nat
  | .tail => 0
  | .leaf _ v rest => (if v then 1 else 0) + rest.usefulCount
  | .parent _ v _ children rest =>
    (if v || decide (0 < children.usefulCount) then 1 else 0) + rest.usefulCount

/-- Whether a node is useful, by recursion on the trie. -/
def PtNode.isUseful (n : PtNode) : Bool :=
  n.hasValidProbability ||
    match n.children with
    | none => false
    | some children => decide (0 < children.usefulCount)

/-- The useless nodes of the trie below an array, in visiting order. -/
def PtNodeArray.uselessNodes (a : PtNodeArray) : List PtNode :=
  a.allNodes.filter (fun n => !n.isUseful)

/-! ## Properties of the deletion-marking listener's stack callbacks -/

/-- Claim C1: on a listener whose value stack is not empty, `onAscend` returns
true, puts the accumulator that was on top of the stack into `mChildrenValue`,
removes exactly that accumulator and keeps the accumulators below it, in
order. -/
theorem onAscend_pops_top (self : MarkListener) (h : self.valueStack ≠ []) :
    ∃ below top, self.valueStack = below ++ [top] ∧
      self.onAscend = (true, { valueStack := below, mChildrenValue := top }) := by
  refine ⟨self.valueStack.dropLast, self.valueStack.getLast h,
    (List.dropLast_append_getLast h).symm, ?_⟩
  simp [TraversePolicyToUpdateUnigramProbabilityAndMarkUselessPtNodesAsDeleted.onAscend, h]

/-- Claim C1 at the listener with stack `4, 0, 7` (7 on top) and scratch value 3. -/
theorem onAscend_pops_top_witness :
    (⟨[4, 0, 7], 3⟩ : MarkListener).valueStack ≠ [] ∧
    ∃ below top, (⟨[4, 0, 7], 3⟩ : MarkListener).valueStack = below ++ [top] ∧
      (⟨[4, 0, 7], 3⟩ : MarkListener).onAscend
        = (true, { valueStack := below, mChildrenValue := top }) :=
  ⟨by decide, onAscend_pops_top ⟨[4, 0, 7], 3⟩ (by decide)⟩

/-- Claim C2: `onDescend` returns true and pushes one accumulator equal to 0 on
top of the stack; the accumulators already there and `mChildrenValue` are
unchanged, and the outcome is the same for every `ptNodeArrayPos`. -/
theorem onDescend_pushes_zero (self : MarkListener) (ptNodeArrayPos : Int) :
    self.onDescend ptNodeArrayPos
        = (true, { valueStack := self.valueStack ++ [0],
                   mChildrenValue := self.mChildrenValue }) ∧
      ∀ otherPos : Int, self.onDescend otherPos = self.onDescend ptNodeArrayPos :=
  ⟨rfl, fun _ => rfl⟩

/-- Claim C7: `onReadingPtNodeArrayTail` returns true and leaves the value stack
and `mChildrenValue` as they were. -/
theorem onReadingPtNodeArrayTail_noop (self : MarkListener) :
    self.onReadingPtNodeArrayTail = (true, self) ∧
      self.onReadingPtNodeArrayTail.2.valueStack = self.valueStack ∧
      self.onReadingPtNodeArrayTail.2.mChildrenValue = self.mChildrenValue :=
  ⟨rfl, rfl, rfl⟩

/-- Claim C9: `onAscend` returns false exactly when the value stack is empty at
the call, and then the listener is unchanged: the stack is still empty and
`mChildrenValue` keeps its value. -/
theorem onAscend_false_iff_empty (self : MarkListener) :
    (self.onAscend.1 = false ↔ self.valueStack = []) ∧
      (self.onAscend.1 = false →
        self.onAscend.2 = self ∧ self.onAscend.2.valueStack = [] ∧
          self.onAscend.2.mChildrenValue = self.mChildrenValue) := by
  by_cases h : self.valueStack = []
  · simp [TraversePolicyToUpdateUnigramProbabilityAndMarkUselessPtNodesAsDeleted.onAscend, h]
  · simp [TraversePolicyToUpdateUnigramProbabilityAndMarkUselessPtNodesAsDeleted.onAscend, h]

/-- Claim C9 at the listener with an empty stack and scratch value 5. -/
theorem onAscend_false_iff_empty_witness :
    (⟨[], 5⟩ : MarkListener).onAscend.1 = false ∧
      (⟨[], 5⟩ : MarkListener).onAscend.2 = ⟨[], 5⟩ :=
  ⟨(onAscend_false_iff_empty ⟨[], 5⟩).1.2 rfl,
    ((onAscend_false_iff_empty ⟨[], 5⟩).2 ((onAscend_false_iff_empty ⟨[], 5⟩).1.2 rfl)).1⟩

/-! ## Properties of the bigram-pruning listener -/

/-- Claim C3: the bigram-pruning listener's `onVisitingPtNode` returns false
exactly when the node is not deleted, its bigram position differs from
`NOT_A_DICT_POS`, and the collaborator reports failure; otherwise it returns
true. -/
theorem bigram_onVisitingPtNode_false_iff {σ : Type} (NOT_A_DICT_POS : Int)
    (self : TraversePolicyToUpdateBigramProbability σ) (policy : σ)
    (node : DynamicPatriciaTrieNodeReader) (nodeCodePoints : List Int) :
    ((self.onVisitingPtNode NOT_A_DICT_POS policy node nodeCodePoints).1 = false ↔
      (node.isDeleted = false ∧ node.getBigramsPos ≠ NOT_A_DICT_POS ∧
        (self.mBigramPolicy.updateAllBigramEntriesAndDeleteUselessEntries policy
          node.getBigramsPos).1 = false)) ∧
    ((self.onVisitingPtNode NOT_A_DICT_POS policy node nodeCodePoints).1 = true ↔
      ¬ (node.isDeleted = false ∧ node.getBigramsPos ≠ NOT_A_DICT_POS ∧
        (self.mBigramPolicy.updateAllBigramEntriesAndDeleteUselessEntries policy
          node.getBigramsPos).1 = false)) := by
  unfold TraversePolicyToUpdateBigramProbability.onVisitingPtNode
  cases hd : node.isDeleted <;>
    by_cases hp : node.getBigramsPos = NOT_A_DICT_POS <;>
    cases hr : (self.mBigramPolicy.updateAllBigramEntriesAndDeleteUselessEntries policy
      node.getBigramsPos).1 <;>
    simp [hp, hr]

/-- Claim C4: for a deleted node, and for a live node whose bigram position is
`NOT_A_DICT_POS`, the collaborator is not invoked (its state and its record of
invocations are unchanged) and the listener returns true; for a live node with
a bigram chain the collaborator is invoked exactly once, with the node's
`getBigramsPos()`, and the listener returns the collaborator's report whatever
value the collaborator writes back into the head position. -/
theorem bigram_onVisitingPtNode_delegates {σ : Type} (NOT_A_DICT_POS : Int)
    (report : σ → Int → Bool) (written : σ → Int → Int) (next : σ → Int → σ)
    (policy : σ) (record : List Int)
    (node : DynamicPatriciaTrieNodeReader) (nodeCodePoints : List Int) :
    ((node.isDeleted = true ∨ node.getBigramsPos = NOT_A_DICT_POS) →
      TraversePolicyToUpdateBigramProbability.onVisitingPtNode NOT_A_DICT_POS
          ⟨(DynamicBigramListPolicy.ofParts report written next).recording⟩
          (policy, record) node nodeCodePoints
        = (true, ⟨(DynamicBigramListPolicy.ofParts report written next).recording⟩,
            (policy, record))) ∧
    ((node.isDeleted = false ∧ node.getBigramsPos ≠ NOT_A_DICT_POS) →
      TraversePolicyToUpdateBigramProbability.onVisitingPtNode NOT_A_DICT_POS
          ⟨(DynamicBigramListPolicy.ofParts report written next).recording⟩
          (policy, record) node nodeCodePoints
        = (report policy node.getBigramsPos,
            ⟨(DynamicBigramListPolicy.ofParts report written next).recording⟩,
            (next policy node.getBigramsPos, record ++ [node.getBigramsPos]))) := by
  unfold TraversePolicyToUpdateBigramProbability.onVisitingPtNode
  cases hd : node.isDeleted <;>
    by_cases hp : node.getBigramsPos = NOT_A_DICT_POS <;>
    cases hr : report policy node.getBigramsPos <;>
    simp [hp, hr, DynamicBigramListPolicy.recording, DynamicBigramListPolicy.ofParts]

/-- Claim C4 at a live node with bigram position 40, `NOT_A_DICT_POS` taken as
-1, and a collaborator that reports failure at 40, writes 0 back and counts its
invocations: the listener returns false, the collaborator was invoked once,
with 40. -/
theorem bigram_onVisitingPtNode_delegates_witness :
    TraversePolicyToUpdateBigramProbability.onVisitingPtNode (-1)
        ⟨(DynamicBigramListPolicy.ofParts (fun (_ : Nat) pos => decide (pos ≠ 40))
          (fun _ _ => 0) (fun n _ => n + 1)).recording⟩
        (0, []) ⟨false, 40⟩ [99, 97]
      = (false,
          ⟨(DynamicBigramListPolicy.ofParts (fun (_ : Nat) pos => decide (pos ≠ 40))
            (fun _ _ => 0) (fun n _ => n + 1)).recording⟩,
          (1, [40])) :=
  (bigram_onVisitingPtNode_delegates (-1) (fun (_ : Nat) pos => decide (pos ≠ 40))
    (fun _ _ => 0) (fun n _ => n + 1) 0 [] ⟨false, 40⟩ [99, 97]).2 ⟨rfl, by decide⟩

/-- A structural invocation leaves the bigram-pruning listener and the
collaborator as they are and returns true. -/
theorem bigramCall_of_not_visit {σ : Type} (NOT_A_DICT_POS : Int)
    (self : TraversePolicyToUpdateBigramProbability σ) (policy : σ) (c : BigramCall)
    (h : c.isVisit = false) : bigramCall NOT_A_DICT_POS self policy c = (true, self, policy) := by
  cases c <;> first | rfl | simp [BigramCall.isVisit] at h

/-- A pass has the outcome of the pass made of its node visits alone. -/
theorem bigramPass_filter_isVisit {σ : Type} (NOT_A_DICT_POS : Int) (cs : List BigramCall) :
    ∀ (self : TraversePolicyToUpdateBigramProbability σ) (policy : σ),
      bigramPass NOT_A_DICT_POS self policy cs
        = bigramPass NOT_A_DICT_POS self policy (cs.filter BigramCall.isVisit) := by
  induction cs with
  | nil => intro self policy; rfl
  | cons c cs ih =>
    intro self policy
    cases hc : c.isVisit with
    | false =>
      rw [List.filter_cons_of_neg (by simp [hc])]
      simp only [bigramPass, bigramCall_of_not_visit NOT_A_DICT_POS self policy c hc]
      exact ih self policy
    | true =>
      rw [List.filter_cons_of_pos (by simp [hc])]
      simp only [bigramPass]
      split
      · exact ih _ _
      · rfl

/-- Claim C8: in the bigram-pruning listener `onDescend`,
`onReadingPtNodeArrayTail` and `onAscend` return true for every argument and in
every state, leave the listener and the collaborator (so also any record of its
invocations) unchanged, and two passes with the same node visits in the same
order have the same outcome wherever their structural events occur. -/
theorem bigram_structural_callbacks_noop {σ : Type} (NOT_A_DICT_POS : Int)
    (self : TraversePolicyToUpdateBigramProbability σ) (policy : σ) :
    self.onAscend policy = (true, self, policy) ∧
    (∀ ptNodeArrayPos : Int, self.onDescend policy ptNodeArrayPos = (true, self, policy)) ∧
    self.onReadingPtNodeArrayTail policy = (true, self, policy) ∧
    (∀ cs cs2 : List BigramCall,
      cs.filter BigramCall.isVisit = cs2.filter BigramCall.isVisit →
      bigramPass NOT_A_DICT_POS self policy cs = bigramPass NOT_A_DICT_POS self policy cs2) := by
  refine ⟨rfl, fun _ => rfl, rfl, fun cs cs2 h => ?_⟩
  rw [bigramPass_filter_isVisit NOT_A_DICT_POS cs, bigramPass_filter_isVisit NOT_A_DICT_POS cs2, h]

/-! ## Sequences of structural calls on the deletion-marking listener -/

theorem onAscend_concat (below : List Int) (top c : Int) :
    (⟨below ++ [top], c⟩ : MarkListener).onAscend = (true, ⟨below, top⟩) := by
  simp [TraversePolicyToUpdateUnigramProbabilityAndMarkUselessPtNodesAsDeleted.onAscend]

theorem onAscend_nil (c : Int) : (⟨[], c⟩ : MarkListener).onAscend = (false, ⟨[], c⟩) := by
  simp [TraversePolicyToUpdateUnigramProbabilityAndMarkUselessPtNodesAsDeleted.onAscend]

theorem countDescend_append (a b : List StructuralCall) :
    countDescend (a ++ b) = countDescend a + countDescend b := by
  induction a with
  | nil => simp [countDescend]
  | cons c a ih => cases c <;> simp [countDescend, ih]; omega

theorem countAscend_append (a b : List StructuralCall) :
    countAscend (a ++ b) = countAscend a + countAscend b := by
  induction a with
  | nil => simp [countAscend]
  | cons c a ih => cases c <;> simp [countAscend, ih]; omega

theorem callAll_append (a b : List StructuralCall) :
    ∀ st : MarkListener, callAll st (a ++ b)
      = ((callAll st a).1 ++ (callAll (callAll st a).2 b).1, (callAll (callAll st a).2 b).2) := by
  induction a with
  | nil => intro st; simp [callAll]
  | cons c a ih => intro st; simp [callAll, ih]

/-- Every call of a sequence that returned true moved the stack size by one up
(`onDescend`), by one down (`onAscend`) or not at all. -/
theorem callAll_size (cs : List StructuralCall) :
    ∀ st : MarkListener, (∀ b ∈ (callAll st cs).1, b = true) →
      (callAll st cs).2.valueStack.length + countAscend cs
        = st.valueStack.length + countDescend cs := by
  induction cs with
  | nil => intro st _; simp [callAll, countAscend, countDescend]
  | cons c cs ih =>
    intro st h
    have h0 : (call st c).1 = true := h _ (List.mem_cons_self _ _)
    have hrest : ∀ b ∈ (callAll (call st c).2 cs).1, b = true :=
      fun b hb => h b (List.mem_cons_of_mem _ hb)
    have hih := ih _ hrest
    have hstep : (callAll st (c :: cs)).2 = (callAll (call st c).2 cs).2 := rfl
    rw [hstep]
    cases c with
    | descend p =>
      have hlen : (call st (.descend p)).2.valueStack.length = st.valueStack.length + 1 := by
        simp [call, TraversePolicyToUpdateUnigramProbabilityAndMarkUselessPtNodesAsDeleted.onDescend]
      have hd : countDescend (.descend p :: cs) = countDescend cs + 1 := rfl
      have ha : countAscend (.descend p :: cs) = countAscend cs := rfl
      omega
    | arrayTail =>
      have hlen : (call st .arrayTail).2.valueStack.length = st.valueStack.length := rfl
      have hd : countDescend (.arrayTail :: cs) = countDescend cs := rfl
      have ha : countAscend (.arrayTail :: cs) = countAscend cs := rfl
      omega
    | ascend =>
      have hd : countDescend (.ascend :: cs) = countDescend cs := rfl
      have ha : countAscend (.ascend :: cs) = countAscend cs + 1 := rfl
      obtain ⟨stack, c⟩ := st
      rcases List.eq_nil_or_concat stack with hs | ⟨below, top, hs⟩
      · subst hs; simp [call, onAscend_nil] at h0
      · rw [List.concat_eq_append] at hs
        subst hs
        have hlen : (call ⟨below ++ [top], c⟩ .ascend).2.valueStack.length = below.length := by
          simp [call, onAscend_concat]
        have hl2 : (⟨below ++ [top], c⟩ : MarkListener).valueStack.length = below.length + 1 := by
          simp
        omega

/-- Claim C5: after any sequence of `onDescend`, `onReadingPtNodeArrayTail` and
`onAscend` calls on a freshly constructed listener in which every call returned
true, the size of the value stack is the number of `onDescend` calls minus the
number of `onAscend` calls. -/
theorem valueStack_size_eq_depth (cs : List StructuralCall)
    (h : ∀ b ∈ (callAll TraversePolicyToUpdateUnigramProbabilityAndMarkUselessPtNodesAsDeleted.new
      cs).1, b = true) :
    ((callAll TraversePolicyToUpdateUnigramProbabilityAndMarkUselessPtNodesAsDeleted.new
      cs).2.valueStack.length : Int) = (countDescend cs : Int) - (countAscend cs : Int) := by
  have hsize := callAll_size cs _ h
  have hnew : TraversePolicyToUpdateUnigramProbabilityAndMarkUselessPtNodesAsDeleted.new.valueStack.length
      = 0 := rfl
  omega

/-- Claim C5 on the calls descend, descend, tail, ascend, descend: every call
returns true, and the stack holds 3 - 1 = 2 accumulators. -/
theorem valueStack_size_eq_depth_witness :
    (∀ b ∈ (callAll TraversePolicyToUpdateUnigramProbabilityAndMarkUselessPtNodesAsDeleted.new
      [.descend 0, .descend 8, .arrayTail, .ascend, .descend 12]).1, b = true) ∧
    ((callAll TraversePolicyToUpdateUnigramProbabilityAndMarkUselessPtNodesAsDeleted.new
      [.descend 0, .descend 8, .arrayTail, .ascend, .descend 12]).2.valueStack.length : Int)
      = ((3 : Nat) : Int) - ((1 : Nat) : Int) :=
  ⟨by decide, valueStack_size_eq_depth
    [.descend 0, .descend 8, .arrayTail, .ascend, .descend 12] (by decide)⟩

/-! ### Well-nested sequences -/

theorem neverBelow_iff (cs : List StructuralCall) : NeverBelow cs ↔ NeverBelowFrom 0 cs := by
  simp [NeverBelow, NeverBelowFrom]

theorem NeverBelowFrom.total {n : Nat} {cs : List StructuralCall} (h : NeverBelowFrom n cs) :
    countAscend cs ≤ n + countDescend cs := by
  simpa using h cs.length (Nat.le_refl _)

theorem NeverBelowFrom.of_descend {n : Nat} {p : Int} {cs : List StructuralCall}
    (h : NeverBelowFrom n (.descend p :: cs)) : NeverBelowFrom (n + 1) cs := by
  intro k hk
  have := h (k + 1) (by simpa using hk)
  simp only [List.take_succ_cons, countAscend, countDescend] at this
  omega

theorem NeverBelowFrom.of_arrayTail {n : Nat} {cs : List StructuralCall}
    (h : NeverBelowFrom n (.arrayTail :: cs)) : NeverBelowFrom n cs := by
  intro k hk
  have := h (k + 1) (by simpa using hk)
  simpa only [List.take_succ_cons, countAscend, countDescend] using this

theorem NeverBelowFrom.of_ascend {n : Nat} {cs : List StructuralCall}
    (h : NeverBelowFrom n (.ascend :: cs)) : ∃ m, n = m + 1 ∧ NeverBelowFrom m cs := by
  have h1 := h 1 (by simp)
  simp only [List.take_succ_cons, List.take_zero, countAscend, countDescend] at h1
  refine ⟨n - 1, by omega, ?_⟩
  intro k hk
  have := h (k + 1) (by simpa using hk)
  simp only [List.take_succ_cons, countAscend, countDescend] at this
  omega

theorem NeverBelowFrom.cons_descend {n : Nat} {cs : List StructuralCall} (p : Int)
    (h : NeverBelowFrom (n + 1) cs) : NeverBelowFrom n (.descend p :: cs) := by
  intro k hk
  cases k with
  | zero => simp [countAscend]
  | succ k =>
    have := h k (by simpa using hk)
    simp only [List.take_succ_cons, countAscend, countDescend]
    omega

theorem NeverBelowFrom.append {n : Nat} {a b : List StructuralCall}
    (ha : NeverBelowFrom n a)
    (hb : NeverBelowFrom (n + countDescend a - countAscend a) b) :
    NeverBelowFrom n (a ++ b) := by
  intro k hk
  rw [List.take_append_eq_append_take, countAscend_append, countDescend_append]
  by_cases hka : k ≤ a.length
  · have h0 : k - a.length = 0 := by omega
    have := ha k hka
    simp only [h0, List.take_zero, countAscend, countDescend]
    omega
  · have hlen : (a ++ b).length = a.length + b.length := List.length_append _ _
    have h1 := hb (k - a.length) (by omega)
    have h2 := ha.total
    rw [List.take_of_length_le (by omega : a.length ≤ k)]
    omega

/-- A sequence that opens more arrays than it closes ends with a well-nested
run of calls that follows an `onDescend` call. -/
theorem exists_open_descend (n : Nat) :
    ∀ a : List StructuralCall, a.length = n → countAscend a < countDescend a →
      ∃ before p mid, a = before ++ .descend p :: mid ∧ WellNested mid := by
  induction n using Nat.strong_induction_on with
  | _ n ih =>
    intro a hlen hlt
    rcases List.eq_nil_or_concat a with ha | ⟨a1, x, ha⟩
    · subst ha; simp [countAscend, countDescend] at hlt
    · rw [List.concat_eq_append] at ha
      subst ha
      have hl : (a1 ++ [x]).length = a1.length + 1 := by simp
      rw [countAscend_append, countDescend_append] at hlt
      cases x with
      | descend p =>
        exact ⟨a1, p, [], rfl, rfl, by intro k hk; simp at hk; subst hk; simp [countAscend]⟩
      | arrayTail =>
        simp only [countAscend, countDescend] at hlt
        obtain ⟨before, p, mid, hmid, hbal, hnb⟩ :=
          ih a1.length (by omega) a1 rfl (by omega)
        refine ⟨before, p, mid ++ [.arrayTail], by simp [hmid], ?_, ?_⟩
        · rw [countAscend_append, countDescend_append, hbal]; rfl
        · rw [neverBelow_iff] at hnb ⊢
          refine hnb.append ?_
          intro k hk
          have : k = 0 ∨ k = 1 := by simp at hk; omega
          rcases this with rfl | rfl <;> simp [countAscend, countDescend]
      | ascend =>
        simp only [countAscend, countDescend] at hlt
        obtain ⟨before, p, mid, hmid, hbal, hnb⟩ :=
          ih a1.length (by omega) a1 rfl (by omega)
        have hcnt : countAscend before < countDescend before := by
          have h1 : countAscend a1 = countAscend before + countAscend mid := by
            rw [hmid, countAscend_append]; rfl
          have h2 : countDescend a1 = countDescend before + (countDescend mid + 1) := by
            rw [hmid, countDescend_append]; rfl
          omega
        have hbl : before.length < n := by
          have : a1.length = before.length + (mid.length + 1) := by rw [hmid]; simp
          omega
        obtain ⟨before2, q, mid2, hmid2, hbal2, hnb2⟩ := ih before.length hbl before rfl hcnt
        refine ⟨before2, q, mid2 ++ (.descend p :: (mid ++ [.ascend])), ?_, ?_, ?_⟩
        · simp [hmid, hmid2]
        · simp only [countAscend_append, countDescend_append, countAscend, countDescend]
          omega
        · rw [neverBelow_iff] at hnb hnb2 ⊢
          refine hnb2.append ?_
          have h0 : 0 + countDescend mid2 - countAscend mid2 = 0 := by omega
          rw [h0]
          refine NeverBelowFrom.cons_descend p ?_
          refine NeverBelowFrom.append ?_ ?_
          · intro k hk
            have := hnb k hk
            omega
          · intro k hk
            have : k = 0 ∨ k = 1 := by simp at hk; omega
            rcases this with rfl | rfl
            · simp [countAscend, countDescend]
            · simp only [List.take_succ_cons, List.take_zero, countAscend, countDescend]
              omega

/-- Calls that never close more arrays than were opened on top of `base` all
return true and leave the accumulators of `base` untouched. -/
theorem callAll_frame (cs : List StructuralCall) :
    ∀ (base above : List Int) (c : Int), NeverBelowFrom above.length cs →
      (∀ b ∈ (callAll ⟨base ++ above, c⟩ cs).1, b = true) ∧
      ∃ above2, (callAll ⟨base ++ above, c⟩ cs).2.valueStack = base ++ above2 ∧
        above2.length + countAscend cs = above.length + countDescend cs := by
  induction cs with
  | nil => intro base above c _; exact ⟨by simp [callAll], above, rfl, rfl⟩
  | cons x cs ih =>
    intro base above c h
    cases x with
    | descend p =>
      have hn := h.of_descend
      have hst : (call ⟨base ++ above, c⟩ (.descend p)) = (true, ⟨base ++ (above ++ [0]), c⟩) := by
        simp [call, TraversePolicyToUpdateUnigramProbabilityAndMarkUselessPtNodesAsDeleted.onDescend]
      obtain ⟨h1, above2, h2, h3⟩ := ih base (above ++ [0]) c (by simpa using hn)
      simp only [callAll, hst]
      refine ⟨?_, above2, h2, ?_⟩
      · intro b hb
        rcases List.mem_cons.1 hb with rfl | hb
        · rfl
        · exact h1 b hb
      · simp only [countAscend, countDescend, List.length_append, List.length_singleton] at h3 ⊢
        omega
    | arrayTail =>
      have hn := h.of_arrayTail
      have hst : (call ⟨base ++ above, c⟩ .arrayTail) = (true, ⟨base ++ above, c⟩) := rfl
      obtain ⟨h1, above2, h2, h3⟩ := ih base above c hn
      simp only [callAll, hst]
      refine ⟨?_, above2, h2, ?_⟩
      · intro b hb
        rcases List.mem_cons.1 hb with rfl | hb
        · rfl
        · exact h1 b hb
      · simpa only [countAscend, countDescend] using h3
    | ascend =>
      obtain ⟨m, hm, hn⟩ := h.of_ascend
      rcases List.eq_nil_or_concat above with ha | ⟨below, top, ha⟩
      · subst ha; simp at hm
      · rw [List.concat_eq_append] at ha
        subst ha
        have hm2 : below.length = m := by simp at hm; omega
        have hst : (call ⟨base ++ (below ++ [top]), c⟩ .ascend) = (true, ⟨base ++ below, top⟩) := by
          rw [← List.append_assoc]; exact onAscend_concat _ _ _
        obtain ⟨h1, above2, h2, h3⟩ := ih base below top (hm2 ▸ hn)
        simp only [callAll, hst]
        refine ⟨?_, above2, h2, ?_⟩
        · intro b hb
          rcases List.mem_cons.1 hb with rfl | hb
          · rfl
          · exact h1 b hb
        · simp only [countAscend, countDescend, List.length_append, List.length_singleton] at h3 ⊢
          omega

/-- The first `onAscend` call that closes more arrays than are open returns
false, and every call before it returns true. -/
theorem callAll_first_below (cs : List StructuralCall) :
    ∀ (st : MarkListener) (k : Nat),
      (∀ j, j ≤ k → countAscend (cs.take j) ≤ st.valueStack.length + countDescend (cs.take j)) →
      st.valueStack.length + countDescend (cs.take (k + 1)) < countAscend (cs.take (k + 1)) →
      cs[k]? = some .ascend ∧ (callAll st cs).1[k]? = some false ∧
        ∀ j, j < k → (callAll st cs).1[j]? = some true := by
  induction cs with
  | nil => intro st k _ h; simp [countAscend] at h
  | cons x cs ih =>
    intro st k hle hlt
    cases k with
    | zero =>
      cases x with
      | descend p => simp [countAscend, countDescend] at hlt
      | arrayTail => simp [countAscend, countDescend] at hlt
      | ascend =>
        obtain ⟨stack, c⟩ := st
        simp only [List.take_succ_cons, List.take_zero, countAscend, countDescend] at hlt
        have hs : stack = [] := List.length_eq_zero.1 (by omega)
        subst hs
        refine ⟨by simp, ?_, fun j hj => absurd hj (Nat.not_lt_zero _)⟩
        simp [callAll, call, onAscend_nil]
    | succ k =>
      have h1 := hle 1 (by omega)
      have hstep : ∀ j, j ≤ k + 1 → countAscend ((x :: cs).take (j + 1))
          ≤ st.valueStack.length + countDescend ((x :: cs).take (j + 1)) ∨ j = k + 1 := by
        intro j hj
        by_cases hjk : j = k + 1
        · exact Or.inr hjk
        · exact Or.inl (hle (j + 1) (by omega))
      have key : (call st x).1 = true ∧
          (∀ j, j ≤ k → countAscend (cs.take j)
            ≤ (call st x).2.valueStack.length + countDescend (cs.take j)) ∧
          (call st x).2.valueStack.length + countDescend (cs.take (k + 1))
            < countAscend (cs.take (k + 1)) := by
        cases x with
        | descend p =>
          have hl : (call st (.descend p)).2.valueStack.length = st.valueStack.length + 1 := by
            simp [call,
              TraversePolicyToUpdateUnigramProbabilityAndMarkUselessPtNodesAsDeleted.onDescend]
          refine ⟨rfl, ?_, ?_⟩
          · intro j hj
            have := hle (j + 1) (by omega)
            simp only [List.take_succ_cons, countAscend, countDescend] at this
            omega
          · simp only [List.take_succ_cons, countAscend, countDescend] at hlt
            omega
        | arrayTail =>
          have hl : (call st .arrayTail).2.valueStack.length = st.valueStack.length := rfl
          refine ⟨rfl, ?_, ?_⟩
          · intro j hj
            have := hle (j + 1) (by omega)
            simp only [List.take_succ_cons, countAscend, countDescend] at this
            omega
          · simp only [List.take_succ_cons, countAscend, countDescend] at hlt
            omega
        | ascend =>
          simp only [List.take_succ_cons, List.take_zero, countAscend, countDescend] at h1
          obtain ⟨stack, c⟩ := st
          rcases List.eq_nil_or_concat stack with hs | ⟨below, top, hs⟩
          · subst hs; simp at h1
          · rw [List.concat_eq_append] at hs
            subst hs
            have hl : (call ⟨below ++ [top], c⟩ .ascend).2.valueStack.length = below.length := by
              simp [call, onAscend_concat]
            have hl2 : (below ++ [top]).length = below.length + 1 := by simp
            dsimp only at hle hlt
            refine ⟨by simp [call, onAscend_concat], ?_, ?_⟩
            · intro j hj
              have := hle (j + 1) (by omega)
              simp only [List.take_succ_cons, countAscend, countDescend] at this
              omega
            · simp only [List.take_succ_cons, countAscend, countDescend] at hlt
              omega
      obtain ⟨hx, hle2, hlt2⟩ := key
      obtain ⟨i1, i2, i3⟩ := ih (call st x).2 k hle2 hlt2
      refine ⟨by simpa using i1, by simpa [callAll] using i2, ?_⟩
      intro j hj
      cases j with
      | zero => simp [callAll, hx]
      | succ j => simpa [callAll] using i3 j (by omega)

/-- A well-nested run of calls made after an `onDescend` leaves the accumulator
that `onDescend` pushed on top of the stack, and the `onAscend` that follows
the run delivers it into the scratch value. -/
theorem callAll_descend_run_ascend (before mid : List StructuralCall) (p : Int)
    (st : MarkListener) (hmid : WellNested mid) :
    (callAll st (before ++ [.descend p])).2.valueStack
        = (callAll st before).2.valueStack ++ [0] ∧
      (callAll st (before ++ .descend p :: (mid ++ [.ascend]))).2
        = ⟨(callAll st before).2.valueStack, 0⟩ := by
  constructor
  · rw [callAll_append]; rfl
  · rw [callAll_append]
    generalize (callAll st before).2 = s0
    obtain ⟨stack, c⟩ := s0
    have hd : callAll ⟨stack, c⟩ (.descend p :: (mid ++ [.ascend]))
        = (true :: (callAll ⟨stack ++ [0] ++ [], c⟩ (mid ++ [.ascend])).1,
            (callAll ⟨stack ++ [0] ++ [], c⟩ (mid ++ [.ascend])).2) := by
      simp [callAll, call,
        TraversePolicyToUpdateUnigramProbabilityAndMarkUselessPtNodesAsDeleted.onDescend]
    rw [hd, callAll_append]
    obtain ⟨_, above2, h2, h3⟩ :=
      callAll_frame mid (stack ++ [0]) [] c ((neverBelow_iff mid).1 hmid.2)
    have hz : above2 = [] := List.length_eq_zero.1 (by have := hmid.1; simp at h3; omega)
    subst hz
    generalize callAll ⟨stack ++ [0] ++ [], c⟩ mid = r at h2 ⊢
    obtain ⟨rs, ⟨stack2, c2⟩⟩ := r
    simp only [List.append_nil] at h2
    subst h2
    simp [callAll, call, onAscend_concat]

/-- Claim C10: on a freshly constructed listener a well-nested sequence of
`onDescend`, `onReadingPtNodeArrayTail` and `onAscend` calls has no call that
returns false and ends with an empty value stack; each of its `onAscend` calls
has a matching `onDescend` (the one separated from it by a well-nested run) and
delivers into the scratch value the accumulator that `onDescend` pushed,
returning the stack to what it was before that `onDescend`. Conversely, in any
sequence the first `onAscend` that makes the number of `onAscend` calls exceed
the number of `onDescend` calls returns false, every call before it having
returned true. -/
theorem wellNested_calls :
    (∀ cs : List StructuralCall, WellNested cs →
      (∀ b ∈ (callAll
        TraversePolicyToUpdateUnigramProbabilityAndMarkUselessPtNodesAsDeleted.new cs).1,
          b = true) ∧
      (callAll TraversePolicyToUpdateUnigramProbabilityAndMarkUselessPtNodesAsDeleted.new
        cs).2.valueStack = [] ∧
      (∀ pre post : List StructuralCall, cs = pre ++ .ascend :: post →
        (∃ before p mid, pre = before ++ .descend p :: mid ∧ WellNested mid) ∧
        (∀ before p mid, pre = before ++ .descend p :: mid → WellNested mid →
          (callAll TraversePolicyToUpdateUnigramProbabilityAndMarkUselessPtNodesAsDeleted.new
              (before ++ [.descend p])).2.valueStack.getLast?
            = some (callAll
                TraversePolicyToUpdateUnigramProbabilityAndMarkUselessPtNodesAsDeleted.new
                (pre ++ [.ascend])).2.mChildrenValue ∧
          (callAll TraversePolicyToUpdateUnigramProbabilityAndMarkUselessPtNodesAsDeleted.new
              (pre ++ [.ascend])).2.valueStack
            = (callAll TraversePolicyToUpdateUnigramProbabilityAndMarkUselessPtNodesAsDeleted.new
                before).2.valueStack))) ∧
    (∀ (cs : List StructuralCall) (k : Nat),
      (∀ j, j ≤ k → countAscend (cs.take j) ≤ countDescend (cs.take j)) →
      countDescend (cs.take (k + 1)) < countAscend (cs.take (k + 1)) →
      cs[k]? = some .ascend ∧
      (callAll TraversePolicyToUpdateUnigramProbabilityAndMarkUselessPtNodesAsDeleted.new
        cs).1[k]? = some false ∧
      ∀ j, j < k →
        (callAll TraversePolicyToUpdateUnigramProbabilityAndMarkUselessPtNodesAsDeleted.new
          cs).1[j]? = some true) := by
  constructor
  · intro cs hcs
    obtain ⟨h1, above2, h2, h3⟩ := callAll_frame cs [] [] 0 ((neverBelow_iff cs).1 hcs.2)
    have hz : above2 = [] := List.length_eq_zero.1 (by have := hcs.1; simp at h3; omega)
    subst hz
    refine ⟨h1, h2, ?_⟩
    intro pre post hpre
    constructor
    · apply exists_open_descend pre.length pre rfl
      have := hcs.2 (pre.length + 1) (by rw [hpre]; simp)
      rw [hpre, List.take_append_eq_append_take] at this
      simp only [List.take_of_length_le (Nat.le_succ _), Nat.add_sub_cancel_left,
        List.take_succ_cons, List.take_zero, countAscend_append, countDescend_append,
        countAscend, countDescend] at this
      omega
    · intro before p mid hb hmid
      obtain ⟨e1, e2⟩ := callAll_descend_run_ascend before mid p
        TraversePolicyToUpdateUnigramProbabilityAndMarkUselessPtNodesAsDeleted.new hmid
      have hp : pre ++ [.ascend] = before ++ .descend p :: (mid ++ [.ascend]) := by
        rw [hb]; simp
      rw [hp, e1, e2]
      simp
  · intro cs k hle hlt
    refine callAll_first_below cs _ k ?_ ?_
    · intro j hj
      have := hle j hj
      simp [TraversePolicyToUpdateUnigramProbabilityAndMarkUselessPtNodesAsDeleted.new]
      omega
    · simp [TraversePolicyToUpdateUnigramProbabilityAndMarkUselessPtNodesAsDeleted.new]
      omega

/-- Claim C10 on two concrete sequences: the well-nested
descend, descend, tail, ascend, tail, ascend and the sequence
descend, ascend, ascend whose third call is the first to close too much. -/
theorem wellNested_calls_witness :
    (callAll TraversePolicyToUpdateUnigramProbabilityAndMarkUselessPtNodesAsDeleted.new
      [.descend 0, .descend 9, .arrayTail, .ascend, .arrayTail, .ascend]).2.valueStack = [] ∧
    (callAll TraversePolicyToUpdateUnigramProbabilityAndMarkUselessPtNodesAsDeleted.new
      [.descend 0, .ascend, .ascend, .descend 4]).1[2]? = some false :=
  ⟨(wellNested_calls.1 [.descend 0, .descend 9, .arrayTail, .ascend, .arrayTail, .ascend]
      (by decide)).2.1,
   (wellNested_calls.2 [.descend 0, .ascend, .ascend, .descend 4] 2
      (by decide) (by decide)).2.1⟩

/-! ## The deletion-marking pass -/

theorem MarkPass.descend_eq (stack : List Int) (c : Int) (marked : List PtNode) (p : Int) :
    (⟨⟨stack, c⟩, marked⟩ : MarkPass).descend p = some ⟨⟨stack ++ [0], c⟩, marked⟩ := rfl

theorem MarkPass.tailAndAscend_concat (below : List Int) (top c : Int) (marked : List PtNode) :
    (⟨⟨below ++ [top], c⟩, marked⟩ : MarkPass).tailAndAscend = some ⟨⟨below, top⟩, marked⟩ := by
  simp [MarkPass.tailAndAscend, onAscend_concat,
    TraversePolicyToUpdateUnigramProbabilityAndMarkUselessPtNodesAsDeleted.onReadingPtNodeArrayTail]

theorem MarkPass.visit_concat (below : List Int) (acc c : Int) (marked : List PtNode)
    (node : PtNode) :
    (⟨⟨below ++ [acc], c⟩, marked⟩ : MarkPass).visit node
      = some (if node.hasValidProbability || (node.children.isSome && decide (0 < c))
          then ⟨⟨below ++ [acc + 1], c⟩, marked⟩
          else ⟨⟨below ++ [acc], c⟩, marked ++ [node]⟩) := by
  have hne : below ++ [acc] ≠ [] := by simp
  simp only [MarkPass.visit, MarkPass.onVisitingPtNode, dif_neg hne]
  split <;> simp

theorem PtNode.isUseful_leaf (pos : Int) (v : Bool) : PtNode.isUseful ⟨pos, v, none⟩ = v := by
  simp [PtNode.isUseful]

theorem PtNode.isUseful_parent (pos : Int) (v : Bool) (children : PtNodeArray) :
    PtNode.isUseful ⟨pos, v, some children⟩ = (v || decide (0 < children.usefulCount)) := rfl

theorem PtNodeArray.uselessNodes_leaf (pos : Int) (v : Bool) (rest : PtNodeArray) :
    (PtNodeArray.leaf pos v rest).uselessNodes
      = if v then rest.uselessNodes else ⟨pos, v, none⟩ :: rest.uselessNodes := by
  cases v <;> simp [PtNodeArray.uselessNodes, PtNodeArray.allNodes, PtNode.isUseful_leaf]

theorem PtNodeArray.uselessNodes_parent (pos : Int) (v : Bool) (childrenPos : Int)
    (children rest : PtNodeArray) :
    (PtNodeArray.parent pos v childrenPos children rest).uselessNodes
      = children.uselessNodes ++
        if v || decide (0 < children.usefulCount) then rest.uselessNodes
        else ⟨pos, v, some children⟩ :: rest.uselessNodes := by
  simp only [PtNodeArray.uselessNodes, PtNodeArray.allNodes, List.filter_append,
    List.filter_cons, PtNode.isUseful_parent]
  by_cases h : (v || decide (0 < children.usefulCount)) = true <;> simp [h]

/-- The walk over the nodes of an open array runs to its end, adds the number
of useful nodes of the array to the accumulator of the array, and marks the
useless nodes below the array, in visiting order. -/
theorem walkNodes_eq (a : PtNodeArray) :
    ∀ (below : List Int) (acc c : Int) (marked : List PtNode),
      ∃ c2, walkNodes a ⟨⟨below ++ [acc], c⟩, marked⟩
        = some ⟨⟨below ++ [acc + (a.usefulCount : Int)], c2⟩, marked ++ a.uselessNodes⟩ := by
  induction a with
  | tail =>
    intro below acc c marked
    exact ⟨c, by simp [walkNodes, PtNodeArray.usefulCount, PtNodeArray.uselessNodes,
      PtNodeArray.allNodes]⟩
  | leaf pos v rest ih =>
    intro below acc c marked
    cases v with
    | true =>
      obtain ⟨c2, h⟩ := ih below (acc + 1) c marked
      refine ⟨c2, ?_⟩
      simp only [walkNodes, MarkPass.visit_concat, Bool.true_or, if_true, Option.some_bind, h,
        PtNodeArray.uselessNodes_leaf, PtNodeArray.usefulCount]
      have : acc + 1 + (rest.usefulCount : Int) = acc + ((1 + rest.usefulCount : Nat) : Int) := by
        push_cast; ring
      rw [this]
    | false =>
      obtain ⟨c2, h⟩ := ih below acc c (marked ++ [⟨pos, false, none⟩])
      refine ⟨c2, ?_⟩
      simp only [walkNodes, MarkPass.visit_concat, Option.some_bind, Option.isSome_none,
        Bool.false_and, Bool.or_self, Bool.false_eq_true, if_false, h,
        PtNodeArray.uselessNodes_leaf, PtNodeArray.usefulCount, Nat.zero_add,
        List.append_assoc, List.singleton_append]
  | parent pos v childrenPos children rest ihc ihr =>
    intro below acc c marked
    obtain ⟨c1, hc⟩ := ihc (below ++ [acc]) 0 c marked
    have hstart : walkNodes (.parent pos v childrenPos children rest) ⟨⟨below ++ [acc], c⟩, marked⟩
        = ((MarkPass.visit ⟨⟨below ++ [acc], (children.usefulCount : Int)⟩,
              marked ++ children.uselessNodes⟩
              ⟨pos, v, some children⟩).bind (walkNodes rest)) := by
      simp only [walkNodes, MarkPass.descend_eq, Option.some_bind, hc, zero_add,
        MarkPass.tailAndAscend_concat]
    rw [hstart, MarkPass.visit_concat, PtNodeArray.uselessNodes_parent]
    have hcond : (v || (Option.isSome (some children) && decide (0 < (children.usefulCount : Int))))
        = (v || decide (0 < children.usefulCount)) := by
      simp
    rw [hcond]
    cases hu : (v || decide (0 < children.usefulCount)) with
    | true =>
      obtain ⟨c2, h⟩ := ihr below (acc + 1) (children.usefulCount : Int)
        (marked ++ children.uselessNodes)
      refine ⟨c2, ?_⟩
      simp only [if_true, Option.some_bind, h, PtNodeArray.usefulCount, hu, List.append_assoc]
      have : acc + 1 + (rest.usefulCount : Int) = acc + ((1 + rest.usefulCount : Nat) : Int) := by
        push_cast; ring
      rw [this]
    | false =>
      obtain ⟨c2, h⟩ := ihr below acc (children.usefulCount : Int)
        (marked ++ children.uselessNodes ++ [⟨pos, v, some children⟩])
      refine ⟨c2, ?_⟩
      simp only [List.append_assoc, List.singleton_append] at h
      simp only [Bool.false_eq_true, if_false, Option.some_bind, PtNodeArray.usefulCount, hu,
        Nat.zero_add, List.append_assoc, List.singleton_append, h]

/-- The pass runs to its end and marks exactly the useless nodes of the trie. -/
theorem markPass_eq (rootPos : Int) (root : PtNodeArray) :
    markPass rootPos root = some ⟨⟨[], (root.usefulCount : Int)⟩, root.uselessNodes⟩ := by
  obtain ⟨c2, h⟩ := walkNodes_eq root [] 0 0 []
  simp only [List.nil_append, zero_add] at h
  simp only [markPass, TraversePolicyToUpdateUnigramProbabilityAndMarkUselessPtNodesAsDeleted.new,
    MarkPass.descend_eq, List.nil_append, Option.some_bind, h]
  exact MarkPass.tailAndAscend_concat [] _ _ _

/-- The descendants of a node of the trie are nodes of the trie. -/
theorem PtNodeArray.descendants_mem (a : PtNodeArray) :
    ∀ n ∈ a.allNodes, ∀ d ∈ n.descendants, d ∈ a.allNodes := by
  induction a with
  | tail => intro n hn; simp [PtNodeArray.allNodes] at hn
  | leaf pos v rest ih =>
    intro n hn d hd
    simp only [PtNodeArray.allNodes, List.mem_cons] at hn ⊢
    rcases hn with rfl | hn
    · simp [PtNode.descendants] at hd
    · exact Or.inr (ih n hn d hd)
  | parent pos v childrenPos children rest ihc ihr =>
    intro n hn d hd
    simp only [PtNodeArray.allNodes, List.mem_append, List.mem_cons] at hn ⊢
    rcases hn with hn | rfl | hn
    · exact Or.inl (ihc n hn d hd)
    · exact Or.inl (by simpa [PtNode.descendants] using hd)
    · exact Or.inr (Or.inr (ihr n hn d hd))

/-- An array holds no useful node exactly when every node below it is useless. -/
theorem PtNodeArray.usefulCount_eq_zero_iff (a : PtNodeArray) :
    a.usefulCount = 0 ↔ ∀ d ∈ a.allNodes, d.isUseful = false := by
  induction a with
  | tail => simp [PtNodeArray.usefulCount, PtNodeArray.allNodes]
  | leaf pos v rest ih =>
    simp only [PtNodeArray.usefulCount, PtNodeArray.allNodes, List.mem_cons, forall_eq_or_imp,
      PtNode.isUseful_leaf, ← ih]
    cases v <;> simp
  | parent pos v childrenPos children rest ihc ihr =>
    simp only [PtNodeArray.usefulCount, PtNodeArray.allNodes, List.mem_append, List.mem_cons,
      or_imp, forall_and, forall_eq, PtNode.isUseful_parent, ← ihc, ← ihr]
    by_cases hu : (v || decide (0 < children.usefulCount)) = true
    · simp [hu]
    · have hu2 : (v || decide (0 < children.usefulCount)) = false := by simpa using hu
      have hz : children.usefulCount = 0 := by
        cases v <;> simp at hu2
        exact hu2
      simp [hu2, hz]

/-- Claim C6: the deletion-marking pass over any trie runs to its end, marks
only nodes of the trie, and marks a node of the trie as deleted if and only if
the node has no valid terminal probability and no live descendant, that is,
every descendant of the node is itself marked deleted. -/
theorem markPass_deleted_iff_useless (rootPos : Int) (root : PtNodeArray) :
    ∃ st, markPass rootPos root = some st ∧
      (∀ n ∈ st.markedDeleted, n ∈ root.allNodes) ∧
      ∀ n ∈ root.allNodes,
        (n ∈ st.markedDeleted ↔
          n.hasValidProbability = false ∧ ∀ d ∈ n.descendants, d ∈ st.markedDeleted) := by
  refine ⟨_, markPass_eq rootPos root, ?_, ?_⟩
  · intro n hn
    exact (List.mem_filter.1 hn).1
  · intro n hn
    have hmem : ∀ m, m ∈ root.uselessNodes ↔ m ∈ root.allNodes ∧ m.isUseful = false := by
      intro m; simp [PtNodeArray.uselessNodes, List.mem_filter]
    simp only [hmem]
    have hsub := root.descendants_mem n hn
    obtain ⟨pos, v, children⟩ := n
    cases children with
    | none => simp [hn, PtNode.isUseful, PtNode.descendants]
    | some c =>
      have hz := c.usefulCount_eq_zero_iff
      simp only [PtNode.descendants] at hsub ⊢
      simp only [hn, true_and, PtNode.isUseful_parent, Bool.or_eq_false_iff, decide_eq_false_iff_not,
        Nat.not_lt, Nat.le_zero, hz]
      constructor
      · rintro ⟨h1, h2⟩
        exact ⟨h1, fun d hd => ⟨hsub d hd, h2 d hd⟩⟩
      · rintro ⟨h1, h2⟩
        exact ⟨h1, fun d hd => (h2 d hd).2⟩

/-- Claim C6 on the scenario of the spec: the root array holds "cat" (valid
probability, no children), "car" (no valid probability, one child "t" with a
valid probability) and "dog" (no valid probability, no children). The pass
marks "dog" and leaves "car" unmarked. -/
theorem markPass_deleted_iff_useless_witness :
    ∃ st, markPass 0 (.leaf 10 true (.parent 20 false 100 (.leaf 110 true .tail)
          (.leaf 30 false .tail))) = some st ∧
      (⟨30, false, none⟩ : PtNode) ∈ st.markedDeleted ∧
      (⟨20, false, some (.leaf 110 true .tail)⟩ : PtNode) ∉ st.markedDeleted := by
  obtain ⟨st, hrun, _, hiff⟩ := markPass_deleted_iff_useless 0
    (.leaf 10 true (.parent 20 false 100 (.leaf 110 true .tail) (.leaf 30 false .tail)))
  refine ⟨st, hrun, ?_, ?_⟩
  · refine (hiff ⟨30, false, none⟩ (by decide)).2 ⟨rfl, ?_⟩
    intro d hd
    simp [PtNode.descendants] at hd
  · intro hcar
    have ht := ((hiff ⟨20, false, some (.leaf 110 true .tail)⟩ (by decide)).1 hcar).2
      ⟨110, true, none⟩ (by decide)
    have := ((hiff ⟨110, true, none⟩ (by decide)).1 ht).1
    simp at this

end DynamicPatriciaTrieGcEventListeners
